import Mathlib

/-!
# skipper-disk: the disk receiver stream

A shallow embedding of `standalone/build-disk-receiver-stream.js` and a verification
of its documented behaviour.

The receiver is a Node.js object-mode `Writable`. Its behaviour is embedded as

* pure functions on JavaScript values (`JSVal`) for the option normalisation done when
  the receiver is built (`normalizeMaxBytes`, `applyDefaults`, `resolveOptions`), with
  the arithmetic of line 33 done on IEEE 754 doubles (`roundDouble`, `mulDouble`);
* a trace semantics for the `_write` method (`onFile`): every call the source makes to
  a collaborator (`done`, `fsx.mkdirs`, `fsx.createWriteStream`, `receiver__.emit`,
  `log`, `debug`, handler registration, `pipe`) is recorded, in program order, as an
  `Effect`; the asynchronous callbacks and event handlers the source registers are the
  functions `mkdirsCallback` and `handleEvent`, which the environment invokes.

Platform services (`process.cwd`, `path.resolve`, `path.dirname`, `util.inspect`) are the
fields of a `Platform`; the general theorems hold for every platform, and the concrete
evaluations are made on the POSIX platform `posix`.

The progress stream built by `./build-progress-stream` is a collaborator: the receiver's
call to it is recorded, and what it does to the record store and the events it raises
are inputs (the record store of a `Transfer` is arbitrary, events are arbitrary lists).
-/

namespace SkipperDisk

/-! ## JavaScript values -/

/-- The JavaScript values the receiver inspects. `num` carries an integer-valued
Number and `infinity` is `Infinity`; fractions, `NaN` and `-Infinity` are not modelled.
The numbers the receiver computes are rounded as IEEE 754 doubles (`roundDouble`).
`obj repr` is an object other than a String wrapper whose conversion to a primitive
string yields `repr` (so an array `['15m']` is `obj "15m"`). `func src` is a function
whose source text is `src`. `error msg` is the result of `new Error(msg)`. Symbols and
BigInts are not modelled. -/
inductive JSVal where
  | undefined
  | null
  | bool (b : Bool)
  | num (n : Int)
  | infinity
  | str (s : String)
  | obj (repr : String)
  | func (src : String)
  | error (msg : String)
  deriving DecidableEq, Repr

/-- JavaScript `ToBoolean`. -/
def JSVal.truthy : JSVal → Bool
  | .undefined => false
  | .null => false
  | .bool b => b
  | .num n => n != 0
  | .infinity => true
  | .str s => s != ""
  | .obj _ => true
  | .func _ => true
  | .error _ => true

/-- The string a value contributes to a concatenation: `v + ''`. An integer is written
in decimal (from 10^21 on JavaScript writes digits, `.`, `e` and `+` instead, which hold
no `m` either). -/
def JSVal.toStr : JSVal → String
  | .undefined => "undefined"
  | .null => "null"
  | .bool true => "true"
  | .bool false => "false"
  | .num n => toString n
  | .infinity => "Infinity"
  | .str s => s
  | .obj repr => repr
  | .func src => src
  | .error msg => if msg = "" then "Error" else "Error: " ++ msg

/-- The predicate `_.isString` on the modelled values. -/
def JSVal.isString : JSVal → Bool
  | .str _ => true
  | _ => false

/-- The predicate `_.isFunction`. -/
def JSVal.isFunction : JSVal → Bool
  | .func _ => true
  | _ => false

/-- The test `value === undefined`. -/
def JSVal.isUndefined : JSVal → Bool
  | .undefined => true
  | _ => false

/-! ## The regular expression `/(\d+)m/i` -/

/-- The class `\d`. -/
def isDecimalDigit (c : Char) : Bool := decide ('0' ≤ c) && decide (c ≤ '9')

/-- The pattern character `m` under the flag `i`. -/
def isLetterM (c : Char) : Bool := c == 'm' || c == 'M'

/-- Backtracking of the greedy `\d+` at a fixed start of `cs`: a run of `k` digits is
tried, longest first, and accepted when the next character matches `m`; the value is the
text of capture group 1. -/
def matchAtWith (cs : List Char) : Nat → Option (List Char)
  | 0 => none
  | k + 1 =>
    match (cs.drop (k + 1)).head? with
    | some c => if isLetterM c then some (cs.take (k + 1)) else matchAtWith cs k
    | none => matchAtWith cs k

/-- An attempt to match `(\d+)m` at the start of `cs`. -/
def matchAt (cs : List Char) : Option (List Char) :=
  matchAtWith cs (cs.takeWhile isDecimalDigit).length

/-- The search `str.match(/(\d+)m/i)`: start positions are tried from left to right;
`none` is the `null` result, `some g` a match whose capture group 1 is `g`. -/
def regexDigitsM : List Char → Option (List Char)
  | [] => none
  | c :: cs =>
    match matchAt (c :: cs) with
    | some g => some g
    | none => regexDigitsM cs

/-- The mathematical value of a string of decimal digits. -/
def digitsToNat (cs : List Char) : Nat :=
  cs.foldl (fun acc c => acc * 10 + (c.toNat - 48)) 0

/-! ## Numbers: IEEE 754 doubles -/

/-- The number of low bits a natural number loses when it is written with a significand
of 53 bits: the least `e` with `n / 2 ^ e < 2 ^ 53`, found in at most `fuel` halvings. -/
def droppedBits : Nat → Nat → Nat
  | 0, _ => 0
  | fuel + 1, n => if n < 2 ^ 53 then 0 else droppedBits fuel (n / 2) + 1

/-- The bound `2 ^ 1024`, from which on a rounded value is `Infinity`. -/
def doubleOverflow : Nat := 2 ^ 256 * 2 ^ 256 * 2 ^ 256 * 2 ^ 256

/-- The Number value of a natural number: the nearest double, ties to the even
significand; `some d` is the finite double `d`, `none` is `Infinity`. This is the value
of a numeric string of decimal digits (the conversion is correctly rounded, as in V8,
also beyond 20 significant digits) and of an exact product before it is stored. -/
def roundDouble (n : Nat) : Option Nat :=
  let e := droppedBits n n
  let q := n / 2 ^ e
  let r := n % 2 ^ e
  let q' := if 2 ^ e < 2 * r ∨ (2 * r = 2 ^ e ∧ q % 2 = 1) then q + 1 else q
  if q' * 2 ^ e < doubleOverflow then some (q' * 2 ^ e) else none

/-- The product `a * k` of a non-negative Number and a positive integer constant: the
exact product, rounded; `Infinity * k` is `Infinity`. -/
def mulDouble (a : Option Nat) (k : Nat) : Option Nat :=
  a.bind (fun d => roundDouble (d * k))

/-- The JavaScript value of a non-negative Number. -/
def ofDouble : Option Nat → JSVal
  | some d => .num d
  | none => .infinity

/-! ## Option normalisation -/

/-- The options object of the receiver, restricted to the properties the source reads. -/
structure Options where
  maxBytes : JSVal
  onProgress : JSVal
  dirpath : JSVal
  filename : JSVal
  dirname : JSVal
  deriving DecidableEq, Repr

/-- Lines 30-35: the shorthand conversion of `options.maxBytes`. In
`_maxBytesRegResult[1] * 1024 * 1024` the capture is converted to a Number (the double
nearest to its value) and each product is a product of doubles. -/
def normalizeMaxBytes (maxBytes : JSVal) : JSVal :=
  if maxBytes.truthy then
    match regexDigitsM maxBytes.toStr.toList with
    | some g => ofDouble (mulDouble (mulDouble (roundDouble (digitsToNat g)) 1024) 1024)
    | none => maxBytes
  else maxBytes

/-- One property of `_.defaults`: the default is taken only for `undefined`. -/
def defaultTo (value dflt : JSVal) : JSVal :=
  if value.isUndefined then dflt else value

/-- Lines 37-62: `_.defaults(options, {onProgress, maxBytes: 15000000, dirname})`. -/
def applyDefaults (o : Options) : Options :=
  { o with
    onProgress := defaultTo o.onProgress .undefined
    maxBytes := defaultTo o.maxBytes (.num 15000000)
    dirname := defaultTo o.dirname o.dirpath }

/-- The options in force once the receiver is built (lines 25-62). -/
def resolveOptions (o : Options) : Options :=
  applyDefaults { o with maxBytes := normalizeMaxBytes o.maxBytes }

/-! ## The receiver -/

/-- Services of the Node.js platform the receiver calls. `resolve cwd a b` is
`path.resolve(process.cwd(), a, b)`, an `Except.error e` standing for the exception `e`
it throws; `inspect v depth` is `util.inspect(v)` (`none`) or
`util.inspect(v, {depth: d})` (`some d`); `stack v` is the property `v.stack`. -/
structure Platform where
  cwd : String
  resolve : String → JSVal → JSVal → Except JSVal String
  dirname : String → String
  inspect : JSVal → Option Nat → String
  stack : JSVal → JSVal

/-- The incoming file stream `__newFile`, restricted to the properties the receiver
reads or writes. -/
structure IncomingFile where
  skipperFd : JSVal
  fd : JSVal
  filename : JSVal
  field : JSVal
  byteCount : JSVal
  deriving DecidableEq, Repr

/-- An entry of `receiver__._files`, restricted to the properties the receiver reads. -/
structure FileRecord where
  fd : JSVal
  total : JSVal
  deriving DecidableEq, Repr

/-- The receiver `receiver__`: the options it was built with, the `progress` listener
bound at construction, and the record store `receiver__._files`. -/
structure Receiver where
  options : Options
  progressListener : Option JSVal
  files : List FileRecord
  deriving DecidableEq, Repr

/-- Lines 24-74 and 173: the receiver returned by `buildDiskReceiverStream(options)`. -/
def buildDiskReceiverStream (o : Options) : Receiver :=
  let options := resolveOptions o
  { options := options
    progressListener := if options.onProgress.isFunction then some options.onProgress else none
    files := [] }

/-- The observable actions of the receiver, in the order the source performs them. -/
inductive Effect where
  | done (arg : JSVal)
  | throw (err : JSVal)
  | mkdirs (dir : String)
  | debug (msg : String)
  | log (args : List JSVal)
  | onSource (event : String)
  | createWriteStream (path : String) (encoding : JSVal)
  | onOuts (event : String)
  | buildProgressStream (file : IncomingFile)
  | onProgressStream (event : String)
  | pipeSourceToProgress
  | pipeProgressToOuts
  | emitWritefile (file : IncomingFile)
  | emitError (err : JSVal)
  deriving DecidableEq, Repr

/-- The variables captured by the callbacks of one `_write` call: the receiver, the file
`__newFile`, the local `skipperFd` and the `encoding` argument. -/
structure Transfer where
  receiver : Receiver
  newFile : IncomingFile
  skipperFd : String
  encoding : JSVal
  deriving DecidableEq, Repr

/-- Line 88: `__newFile.skipperFd || (_.isString(__newFile.fd) ? __newFile.fd : undefined)`. -/
def determineFd (f : IncomingFile) : JSVal :=
  if f.skipperFd.truthy then f.skipperFd
  else if f.fd.isString then f.fd else .undefined

/-- The test `skipperFd.match(/^\//)` of line 95. -/
def hasLeadingSlash (s : String) : Bool :=
  s.toList.head? == some '/'

/-- Lines 80-102: the synchronous part of `_write` (`onFile`). The result is the trace of
the call and, when `fsx.mkdirs` was called, the closure its callback runs in. -/
def onFile (P : Platform) (r : Receiver) (f : IncomingFile) (encoding : JSVal) :
    List Effect × Option Transfer :=
  match determineFd f with
  | .str s =>
    if hasLeadingSlash s then
      ([.mkdirs (P.dirname s)], some ⟨r, f, s, encoding⟩)
    else
      match P.resolve P.cwd r.options.dirpath r.options.filename with
      | .ok p => ([.mkdirs (P.dirname p)], some ⟨r, { f with skipperFd := .str p }, p, encoding⟩)
      | .error e => ([.throw e], none)
  | v =>
    ([.done (.error ("In skipper-disk adapter, write() method called with a stream that has an invalid `skipperFd`: " ++ v.toStr))], none)

/-- Lines 102-169: the callback of `fsx.mkdirs`. The flag tells whether the handlers were
bound and the pipeline wired. -/
def mkdirsCallback (t : Transfer) (mkdirsErr : JSVal) : List Effect × Bool :=
  if mkdirsErr.truthy then ([.done mkdirsErr], false)
  else
    ([ .debug "binding error handler for incoming file in skipper-disk",
       .onSource "error",
       .createWriteStream t.skipperFd t.encoding,
       .onOuts "finish",
       .onOuts "E_EXCEEDS_UPLOAD_LIMIT",
       .buildProgressStream t.newFile,
       .onOuts "error",
       .onProgressStream "error",
       .pipeSourceToProgress,
       .pipeProgressToOuts ], true)

/-- The events the bound handlers react to, with the argument the emitter passes. -/
inductive PipelineEvent where
  | finish
  | exceedsUploadLimit (err : JSVal)
  | outsError (err : JSVal)
  | progressError (err : JSVal)
  | sourceError (err : JSVal)
  deriving DecidableEq, Repr

/-- Line 124: `_.find(receiver__._files, {fd: skipperFd})`. -/
def findRecord (files : List FileRecord) (skipperFd : String) : Option FileRecord :=
  files.find? (fun file => file.fd == .str skipperFd)

/-- Lines 112-115, 121-143 and 154-161: the handlers bound by the `mkdirs` callback. -/
def handleEvent (P : Platform) (t : Transfer) : PipelineEvent → List Effect × Transfer
  | .sourceError err =>
    ([ .debug ("Read error on file " ++ t.newFile.filename.toStr ++ "::" ++
          P.inspect (if err.truthy then P.stack err else err) none),
       .log [.str ("***** READ error on file " ++ t.newFile.filename.toStr), .str "::", err] ], t)
  | .finish =>
    match findRecord t.receiver.files t.skipperFd with
    | some file =>
      let newFile := { t.newFile with byteCount := file.total }
      ([ .log [.str ("finished file: " ++ t.newFile.filename.toStr)],
         .emitWritefile newFile,
         .done .undefined ], { t with newFile := newFile })
    | none =>
      ([ .log [.str ("finished file: " ++ t.newFile.filename.toStr)],
         .debug ("Warning: received `finish` event for file `" ++ t.newFile.filename.toStr ++
           "` uploaded via field `" ++ t.newFile.field.toStr ++
           "`, but could not find a record of that file in the receiver."),
         .debug "Was this a zero-byte file?",
         .debug "Attempting to return the file anyway...",
         .emitWritefile t.newFile,
         .done .undefined ], t)
  | .exceedsUploadLimit err => ([.done err], t)
  | .outsError err =>
    ([ .emitError (.error ("Error writing file `" ++ t.skipperFd ++ "` to disk (for field `" ++
          t.newFile.field.toStr ++ "`): " ++ P.inspect err (some 5))) ], t)
  | .progressError err =>
    ([ .emitError (.error ("Error reported from the progress stream while uploading file `" ++
          t.skipperFd ++ "` (for field `" ++ t.newFile.field.toStr ++ "`): " ++
          P.inspect err (some 5))) ], t)

/-- The handlers run on a sequence of events, in order. -/
def runEvents (P : Platform) : Transfer → List PipelineEvent → List Effect × Transfer
  | t, [] => ([], t)
  | t, ev :: evs =>
    let step := handleEvent P t ev
    let rest := runEvents P step.2 evs
    (step.1 ++ rest.1, rest.2)

/-- The whole trace of one `_write` call: `onFile`, then the `mkdirs` callback invoked
with `mkdirsErr`, then, if the pipeline was wired, the handlers on `evs`. -/
def writeTrace (P : Platform) (r : Receiver) (f : IncomingFile) (encoding mkdirsErr : JSVal)
    (evs : List PipelineEvent) : List Effect :=
  match onFile P r f encoding with
  | (es, none) => es
  | (es, some t) =>
    match mkdirsCallback t mkdirsErr with
    | (es2, false) => es ++ es2
    | (es2, true) => es ++ es2 ++ (runEvents P t evs).1

/-- The calls of the completion callback `done` in a trace, with their argument. -/
def doneCalls : List Effect → List JSVal
  | [] => []
  | .done arg :: es => arg :: doneCalls es
  | _ :: es => doneCalls es

/-- The `writefile` events of a trace, with the file they carry. -/
def writefileEvents : List Effect → List IncomingFile
  | [] => []
  | .emitWritefile file :: es => file :: writefileEvents es
  | _ :: es => writefileEvents es

/-- The `error` events a trace emits on the receiver. -/
def errorEvents : List Effect → List JSVal
  | [] => []
  | .emitError err :: es => err :: errorEvents es
  | _ :: es => errorEvents es

/-- Whether an event's handler calls `done` (lines 139 and 142). -/
def PipelineEvent.completes : PipelineEvent → Bool
  | .finish => true
  | .exceedsUploadLimit _ => true
  | _ => false

/-! ## Specification vocabulary -/

/-- A decimal digit immediately followed by `m` or `M` occurs somewhere in `cs`. -/
def hasDigitM : List Char → Bool
  | d :: m :: rest => (isDecimalDigit d && isLetterM m) || hasDigitM (m :: rest)
  | _ => false

/-- The natural number `n` is exactly representable as a finite double: it is below
`2 ^ 1024` and, for some `e`, a multiple of `2 ^ e` whose quotient fits in 53 bits. -/
def IsExactDouble (n : Nat) : Prop :=
  n < 2 ^ 1024 ∧ ∃ e, n % 2 ^ e = 0 ∧ n / 2 ^ e < 2 ^ 53

/-! ## A POSIX platform for concrete evaluations -/

/-- The segments of a path between its slashes. -/
def splitSlash : List Char → List (List Char)
  | [] => [[]]
  | c :: cs =>
    match splitSlash cs with
    | [] => [[]]
    | seg :: segs => if c = '/' then [] :: seg :: segs else (c :: seg) :: segs

/-- Removal of empty and `.` segments and resolution of `..` segments. -/
def normalizeSegments (segs : List (List Char)) : List (List Char) :=
  segs.foldl (fun acc seg =>
    if seg = [] ∨ seg = ['.'] then acc
    else if seg = ['.', '.'] then acc.dropLast
    else acc ++ [seg]) []

/-- The path `/seg1/seg2/...`. -/
def joinSlash : List (List Char) → List Char
  | [] => []
  | seg :: segs => '/' :: seg ++ joinSlash segs

/-- The loop of POSIX `path.resolve`: arguments are visited from the last to the first
and prepended until an absolute one is found; a visited argument that is not a string
throws a `TypeError`, whose text is abridged here. -/
def posixResolveArgs : List JSVal → List Char → Except JSVal (List Char)
  | [], acc => .ok acc
  | .str s :: rest, acc =>
    if s = "" then posixResolveArgs rest acc
    else if hasLeadingSlash s then .ok (s.toList ++ '/' :: acc)
    else posixResolveArgs rest (s.toList ++ '/' :: acc)
  | _ :: _, _ => .error (.error "The paths argument must be of type string")

/-- POSIX `path.resolve(cwd, a, b)` for an absolute `cwd`. -/
def posixResolve (cwd : String) (a b : JSVal) : Except JSVal String :=
  match posixResolveArgs [b, a, .str cwd] [] with
  | .ok joined =>
    let segs := normalizeSegments (splitSlash joined)
    .ok (if segs = [] then "/" else String.mk (joinSlash segs))
  | .error e => .error e

/-- POSIX `path.dirname`. -/
def posixDirname (p : String) : String :=
  match p.toList with
  | [] => "."
  | c :: cs =>
    match ((cs.reverse.dropWhile (fun x => x == '/')).dropWhile (fun x => x != '/')) with
    | [] => if c = '/' then "/" else "."
    | _ :: front => if c = '/' ∧ front = [] then "//" else String.mk (c :: front.reverse)

/-- A POSIX platform whose working directory is `/srv/app`; `inspect` shows a string
between single quotes and any other value by its string form; only errors have a
`stack`. -/
def posix : Platform where
  cwd := "/srv/app"
  resolve := posixResolve
  dirname := posixDirname
  inspect := fun v _ =>
    match v with
    | .str s => String.singleton (Char.ofNat 39) ++ s ++ String.singleton (Char.ofNat 39)
    | v => v.toStr
  stack := fun v =>
    match v with
    | .error msg => .str ("Error: " ++ msg)
    | _ => .undefined

/-- A receiver built with `{dirpath: 'uploads', filename: 'out.bin'}`. -/
def sampleReceiver : Receiver :=
  buildDiskReceiverStream
    { maxBytes := .undefined, onProgress := .undefined, dirpath := .str "uploads",
      filename := .str "out.bin", dirname := .undefined }

/-- An incoming file whose only identifier is `skipperFd`. -/
def fileWithSkipperFd (skipperFd : JSVal) (filename : String) : IncomingFile :=
  { skipperFd := skipperFd, fd := .undefined, filename := .str filename,
    field := .str "avatar", byteCount := .undefined }

/-- An incoming file without `skipperFd` whose `fd` is the empty string. -/
def fileWithEmptyFd : IncomingFile :=
  { skipperFd := .undefined, fd := .str "", filename := .str "a.txt",
    field := .str "avatar", byteCount := .undefined }

/-- The closure of a transfer to `/srv/app/uploads/a.bin` on a receiver whose record
store holds `files`. -/
def sampleTransfer (files : List FileRecord) : Transfer :=
  { receiver := { sampleReceiver with files := files }
    newFile := fileWithSkipperFd (.str "/srv/app/uploads/a.bin") "a.bin"
    skipperFd := "/srv/app/uploads/a.bin"
    encoding := .str "utf8" }

/-! ## The regular expression: auxiliary facts -/

theorem isLetterM_not_digit {c : Char} (h : isLetterM c = true) : isDecimalDigit c = false := by
  simp only [isLetterM, Bool.or_eq_true, beq_iff_eq] at h
  rcases h with h | h <;> subst h <;> decide

theorem hasDigitM_tail {c : Char} {cs : List Char} (h : hasDigitM (c :: cs) = false) :
    hasDigitM cs = false := by
  cases cs with
  | nil => rfl
  | cons m rest =>
    simp only [hasDigitM, Bool.or_eq_false_iff] at h
    exact h.2

theorem hasDigitM_of_pair (a : List Char) {d m : Char} (b : List Char)
    (hd : isDecimalDigit d = true) (hm : isLetterM m = true) :
    hasDigitM (a ++ d :: m :: b) = true := by
  induction a with
  | nil => simp [hasDigitM, hd, hm]
  | cons x a ih =>
    cases hrest : a ++ d :: m :: b with
    | nil => simp at hrest
    | cons y ys =>
      rw [hrest] at ih
      rw [List.cons_append, hrest]
      simp [hasDigitM, ih]

theorem hasDigitM_of_no_letterM :
    ∀ cs : List Char, (∀ c ∈ cs, isLetterM c = false) → hasDigitM cs = false
  | [], _ => rfl
  | [_], _ => rfl
  | d :: m :: rest, h => by
    have hm : isLetterM m = false := h m (by simp)
    have ih := hasDigitM_of_no_letterM (m :: rest) (fun c hc => h c (List.mem_cons_of_mem _ hc))
    simp [hasDigitM, hm, ih]

/-- Backtracking to a shorter run of digits never succeeds: the next character is a digit. -/
theorem matchAtWith_short (run tl : List Char) (hrun : ∀ d ∈ run, isDecimalDigit d = true) :
    ∀ k, k < run.length → matchAtWith (run ++ tl) k = none := by
  intro k
  induction k with
  | zero => intro _; rfl
  | succ k ih =>
    intro hk
    have hk1 : k < run.length := by omega
    have hdrop : ((run ++ tl).drop (k + 1)).head? = some (run.get ⟨k + 1, hk⟩) := by
      rw [List.drop_append_of_le_length (by omega)]
      rw [List.head?_append_of_ne_nil]
      · rw [List.head?_drop, List.getElem?_eq_getElem hk]; rfl
      · intro h
        have := congrArg List.length h
        simp at this
        omega
    have hdig : isDecimalDigit (run.get ⟨k + 1, hk⟩) = true := hrun _ (List.get_mem _ _ _)
    have hnm : isLetterM (run.get ⟨k + 1, hk⟩) = false := by
      cases hm : isLetterM (run.get ⟨k + 1, hk⟩) with
      | false => rfl
      | true => rw [isLetterM_not_digit hm] at hdig; cases hdig
    rw [matchAtWith, hdrop]
    simp only [hnm]
    exact ih hk1

theorem matchAtWith_full (run tl : List Char) (hrun : ∀ d ∈ run, isDecimalDigit d = true) :
    matchAtWith (run ++ tl) run.length =
      match tl.head? with
      | some c => if isLetterM c = true ∧ run ≠ [] then some run else none
      | none => none := by
  cases run with
  | nil => cases tl <;> simp [matchAtWith]
  | cons r run =>
    have hshort := matchAtWith_short (r :: run) tl hrun run.length (by simp)
    have hdrop : ((r :: run) ++ tl).drop (run.length + 1) = tl := by
      have : (r :: run).length = run.length + 1 := rfl
      rw [← this, List.drop_left]
    have htake : ((r :: run) ++ tl).take (run.length + 1) = r :: run := by
      have : (r :: run).length = run.length + 1 := rfl
      rw [← this, List.take_left]
    rw [List.length_cons, matchAtWith, hdrop, htake, hshort]
    cases tl with
    | nil => rfl
    | cons c tl => simp

/-- The attempt at a fixed start: it succeeds exactly when the maximal run of digits is
not empty and is followed by `m` or `M`, and captures that run. -/
theorem matchAt_run (run : List Char) (x : Char) (tl : List Char)
    (hrun : ∀ d ∈ run, isDecimalDigit d = true) (hx : isDecimalDigit x = false) :
    matchAt (run ++ x :: tl) = if isLetterM x = true ∧ run ≠ [] then some run else none := by
  have htw : (run ++ x :: tl).takeWhile isDecimalDigit = run := by
    induction run with
    | nil => simp [List.takeWhile, hx]
    | cons r run ih =>
      have hr : isDecimalDigit r = true := hrun r (by simp)
      rw [List.cons_append, List.takeWhile_cons, hr]
      simp only [if_true]
      rw [ih (fun d hd => hrun d (List.mem_cons_of_mem _ hd))]
  rw [matchAt, htw, matchAtWith_full run (x :: tl) hrun]
  rfl

theorem matchAt_all_digits (run : List Char) (hrun : ∀ d ∈ run, isDecimalDigit d = true) :
    matchAt run = none := by
  have htw : run.takeWhile isDecimalDigit = run := List.takeWhile_eq_self_iff.2 hrun
  have := matchAtWith_full run [] hrun
  rw [List.append_nil] at this
  rw [matchAt, htw, this]
  rfl

/-- Without a digit followed by `m` or `M` the attempt at the start fails. -/
theorem matchAt_none_of_not_hasDigitM (cs : List Char) (h : hasDigitM cs = false) :
    matchAt cs = none := by
  have hsplit := List.takeWhile_append_dropWhile isDecimalDigit cs
  have hrun : ∀ d ∈ cs.takeWhile isDecimalDigit, isDecimalDigit d = true :=
    fun d hd => List.mem_takeWhile_imp hd
  cases hrem : cs.dropWhile isDecimalDigit with
  | nil =>
    rw [hrem, List.append_nil] at hsplit
    rw [← hsplit]
    exact matchAt_all_digits _ hrun
  | cons x tl =>
    have hx : isDecimalDigit x = false := by
      have := List.head_dropWhile_not isDecimalDigit cs (by rw [hrem]; simp)
      simpa [hrem] using this
    rw [hrem] at hsplit
    rw [← hsplit, matchAt_run _ x tl hrun hx]
    split
    · rename_i hc
      exfalso
      obtain ⟨hm, hne⟩ := hc
      have hlast := List.dropLast_append_getLast hne
      have hd : isDecimalDigit ((cs.takeWhile isDecimalDigit).getLast hne) = true :=
        hrun _ (List.getLast_mem hne)
      have hpair := hasDigitM_of_pair (cs.takeWhile isDecimalDigit).dropLast tl hd hm
      rw [← hsplit, ← hlast, List.append_assoc] at h
      rw [List.singleton_append] at h
      rw [h] at hpair
      cases hpair
    · rfl

theorem regexDigitsM_none (cs : List Char) (h : hasDigitM cs = false) :
    regexDigitsM cs = none := by
  induction cs with
  | nil => rfl
  | cons c cs ih =>
    rw [regexDigitsM, matchAt_none_of_not_hasDigitM _ h]
    exact ih (hasDigitM_tail h)

/-- The search finds the leftmost digit run followed by `m` or `M` and captures the
whole run. -/
theorem regexDigitsM_leftmost (ds : List Char) (c : Char) (post : List Char)
    (hds : ds ≠ []) (hdig : ∀ d ∈ ds, isDecimalDigit d = true) (hc : isLetterM c = true) :
    ∀ pre : List Char, (∀ p ∈ pre.getLast?, isDecimalDigit p = false) →
      hasDigitM (pre ++ ds) = false → regexDigitsM (pre ++ ds ++ c :: post) = some ds := by
  intro pre
  induction pre with
  | nil =>
    intro _ _
    cases ds with
    | nil => exact absurd rfl hds
    | cons d ds =>
      have := matchAt_run (d :: ds) c post hdig (isLetterM_not_digit hc)
      simp only [List.nil_append, List.cons_append] at this ⊢
      rw [regexDigitsM, this]
      simp [hc]
  | cons p pre ih =>
    intro hlast hno
    have hstep : matchAt (p :: pre ++ ds ++ c :: post) = none := by
      have hsplit := List.takeWhile_append_dropWhile isDecimalDigit (p :: pre)
      have hrun : ∀ d ∈ (p :: pre).takeWhile isDecimalDigit, isDecimalDigit d = true :=
        fun d hd => List.mem_takeWhile_imp hd
      cases hrem : (p :: pre).dropWhile isDecimalDigit with
      | nil =>
        exfalso
        have hall := List.dropWhile_eq_nil_iff.1 hrem
        have hne : p :: pre ≠ [] := by simp
        have h1 := hall _ (List.getLast_mem hne)
        have h2 := hlast ((p :: pre).getLast hne) (by rw [List.getLast?_eq_getLast _ hne]; rfl)
        rw [h1] at h2
        cases h2
      | cons x rem =>
        have hx : isDecimalDigit x = false := by
          have := List.head_dropWhile_not isDecimalDigit (p :: pre) (by rw [hrem]; simp)
          simpa [hrem] using this
        rw [hrem] at hsplit
        have hshape : p :: pre ++ ds ++ c :: post =
            (p :: pre).takeWhile isDecimalDigit ++ x :: (rem ++ ds ++ c :: post) := by
          conv_lhs => rw [← hsplit]
          simp [List.append_assoc]
        rw [hshape, matchAt_run _ x _ hrun hx]
        split
        · rename_i hcond
          exfalso
          obtain ⟨hm, hne⟩ := hcond
          have hd : isDecimalDigit (((p :: pre).takeWhile isDecimalDigit).getLast hne) = true :=
            hrun _ (List.getLast_mem hne)
          have hpair := hasDigitM_of_pair ((p :: pre).takeWhile isDecimalDigit).dropLast
            (rem ++ ds) hd hm
          have hshape2 : p :: pre ++ ds =
              ((p :: pre).takeWhile isDecimalDigit).dropLast ++
                ((p :: pre).takeWhile isDecimalDigit).getLast hne :: x :: (rem ++ ds) := by
            conv_lhs => rw [← hsplit, ← List.dropLast_append_getLast hne]
            simp [List.append_assoc]
          rw [hshape2, hpair] at hno
          cases hno
        · rfl
    have hlast2 : ∀ q ∈ pre.getLast?, isDecimalDigit q = false := by
      cases pre with
      | nil => intro q hq; cases hq
      | cons y ys => rw [List.getLast?_cons_cons] at hlast; exact hlast
    have hno2 : hasDigitM (pre ++ ds) = false := hasDigitM_tail hno
    have hcons : p :: pre ++ ds ++ c :: post = p :: (pre ++ ds ++ c :: post) := rfl
    rw [hcons, regexDigitsM, ← hcons, hstep]
    exact ih hlast2 hno2

/-! ## Decimal numerals -/

theorem digitChar_isDecimalDigit (n : Nat) (h : n < 10) :
    isDecimalDigit (Nat.digitChar n) = true := by
  interval_cases n <;> decide

theorem digitChar_value (n : Nat) (h : n < 10) : (Nat.digitChar n).toNat - 48 = n := by
  interval_cases n <;> decide

theorem toDigitsCore_isDecimalDigit (fuel : Nat) :
    ∀ (n : Nat) (ds : List Char), (∀ c ∈ ds, isDecimalDigit c = true) →
      ∀ c ∈ Nat.toDigitsCore 10 fuel n ds, isDecimalDigit c = true := by
  induction fuel with
  | zero => intro n ds h; simpa [Nat.toDigitsCore] using h
  | succ fuel ih =>
    intro n ds h
    have hd : isDecimalDigit (Nat.digitChar (n % 10)) = true :=
      digitChar_isDecimalDigit _ (Nat.mod_lt _ (by decide))
    have hcons : ∀ c ∈ Nat.digitChar (n % 10) :: ds, isDecimalDigit c = true := by
      intro c hc
      rcases List.mem_cons.1 hc with hc | hc
      · rw [hc]; exact hd
      · exact h c hc
    simp only [Nat.toDigitsCore]
    split
    · exact hcons
    · exact ih _ _ hcons

theorem toDigitsCore_value (fuel : Nat) :
    ∀ (n : Nat) (ds : List Char), n < fuel →
      (Nat.toDigitsCore 10 fuel n ds).foldl (fun acc c => acc * 10 + (c.toNat - 48)) 0 =
        ds.foldl (fun acc c => acc * 10 + (c.toNat - 48)) n := by
  induction fuel with
  | zero => intro n ds h; omega
  | succ fuel ih =>
    intro n ds h
    have hv := digitChar_value (n % 10) (Nat.mod_lt _ (by decide))
    simp only [Nat.toDigitsCore]
    split
    · rename_i hz
      simp only [List.foldl_cons, hv]
      have : n % 10 = n := by omega
      rw [Nat.zero_mul, Nat.zero_add, this]
    · rename_i hz
      rw [ih (n / 10) _ (by omega)]
      simp only [List.foldl_cons, hv]
      have : n / 10 * 10 + n % 10 = n := by omega
      rw [this]

/-- The decimal numeral of `n` is made of decimal digits. -/
theorem repr_isDecimalDigit (n : Nat) : ∀ c ∈ (Nat.repr n).toList, isDecimalDigit c = true :=
  toDigitsCore_isDecimalDigit (n + 1) n [] (fun _ h => by cases h)

/-- The decimal numeral of `n` is not empty. -/
theorem repr_ne_nil (n : Nat) : (Nat.repr n).toList ≠ [] := by
  show Nat.toDigitsCore 10 (n + 1) n [] ≠ []
  simp only [Nat.toDigitsCore]
  split
  · simp
  · intro h
    have := Nat.toDigitsCore_lens_eq 10 n (n / 10) (Nat.digitChar (n % 10)) []
    rw [h] at this
    simp at this

/-- The decimal numeral of `n` denotes `n`. -/
theorem digitsToNat_repr (n : Nat) : digitsToNat (Nat.repr n).toList = n :=
  toDigitsCore_value (n + 1) n [] (by omega)

/-- The string form of an integer-valued number holds no `m` and no `M`. -/
theorem hasDigitM_intToStr (n : Int) : hasDigitM (toString n).toList = false := by
  apply hasDigitM_of_no_letterM
  intro c hc
  have hdigit : ∀ (k : Nat) (c : Char), c ∈ (Nat.repr k).toList → isLetterM c = false := by
    intro k c hc
    have hd := repr_isDecimalDigit k c hc
    cases hm : isLetterM c with
    | false => rfl
    | true => rw [isLetterM_not_digit hm] at hd; cases hd
  cases n with
  | ofNat k => exact hdigit k c hc
  | negSucc k =>
    have hstr : (toString (Int.negSucc k)).toList = '-' :: (Nat.repr (k + 1)).toList := rfl
    rw [hstr] at hc
    rcases List.mem_cons.1 hc with hc | hc
    · rw [hc]; decide
    · exact hdigit _ c hc

/-! ## Doubles: auxiliary facts -/

theorem doubleOverflow_eq : doubleOverflow = 2 ^ 1024 := by
  norm_num [doubleOverflow]

/-- The search for the dropped bits stops at the first exponent that leaves 53 bits. -/
theorem droppedBits_le (fuel : Nat) :
    ∀ n e : Nat, n / 2 ^ e < 2 ^ 53 → droppedBits fuel n ≤ e := by
  induction fuel with
  | zero => intro n e _; simp [droppedBits]
  | succ fuel ih =>
    intro n e h
    unfold droppedBits
    split
    · exact Nat.zero_le _
    · rename_i hn
      cases e with
      | zero =>
        rw [pow_zero, Nat.div_one] at h
        exact absurd h hn
      | succ e =>
        have h2 : n / 2 / 2 ^ e < 2 ^ 53 := by
          rw [Nat.div_div_eq_div_mul, ← pow_succ']
          exact h
        have := ih (n / 2) e h2
        omega

/-- Rounding leaves an exactly representable number as it is. -/
theorem roundDouble_of_exact (n : Nat) (h : IsExactDouble n) : roundDouble n = some n := by
  obtain ⟨hlt, e, hmod, hdiv⟩ := h
  have hd : droppedBits n n ≤ e := droppedBits_le n n e hdiv
  have hdvd : 2 ^ droppedBits n n ∣ n :=
    (pow_dvd_pow 2 hd).trans (Nat.dvd_of_mod_eq_zero hmod)
  have hr : n % 2 ^ droppedBits n n = 0 := Nat.mod_eq_zero_of_dvd hdvd
  have hpos : 0 < 2 ^ droppedBits n n := Nat.two_pow_pos _
  have hq : n / 2 ^ droppedBits n n * 2 ^ droppedBits n n = n := Nat.div_mul_cancel hdvd
  have hcond : ¬ (2 ^ droppedBits n n < 2 * 0 ∨
      (2 * 0 = 2 ^ droppedBits n n ∧ n / 2 ^ droppedBits n n % 2 = 1)) := by
    rintro (h1 | ⟨h1, _⟩) <;> omega
  unfold roundDouble
  simp only [hr, if_neg hcond, hq, doubleOverflow_eq, if_pos hlt]

/-- If `a * 2 ^ k` is exactly representable, so is `a`. -/
theorem isExactDouble_of_mul_pow (a k : Nat) (h : IsExactDouble (a * 2 ^ k)) :
    IsExactDouble a := by
  obtain ⟨hlt, e, hmod, hdiv⟩ := h
  have hk : 0 < 2 ^ k := Nat.two_pow_pos _
  have hale : a ≤ a * 2 ^ k := Nat.le_mul_of_pos_right a hk
  refine ⟨lt_of_le_of_lt hale hlt, ?_⟩
  by_cases hke : k ≤ e
  · refine ⟨e - k, ?_, ?_⟩
    · have hsplit : 2 ^ e = 2 ^ (e - k) * 2 ^ k := by
        rw [← pow_add, Nat.sub_add_cancel hke]
      have hdvd : 2 ^ (e - k) * 2 ^ k ∣ a * 2 ^ k := by
        rw [← hsplit]; exact Nat.dvd_of_mod_eq_zero hmod
      exact Nat.mod_eq_zero_of_dvd (Nat.dvd_of_mul_dvd_mul_right hk hdvd)
    · have hsplit : 2 ^ e = 2 ^ (e - k) * 2 ^ k := by
        rw [← pow_add, Nat.sub_add_cancel hke]
      rw [hsplit, Nat.mul_div_mul_right _ _ hk] at hdiv
      exact hdiv
  · refine ⟨0, by rw [pow_zero, Nat.mod_one], ?_⟩
    have hek : e ≤ k := by omega
    have hsplit : a * 2 ^ k = a * 2 ^ (k - e) * 2 ^ e := by
      rw [Nat.mul_assoc, ← pow_add, Nat.sub_add_cancel hek]
    have he : 0 < 2 ^ e := Nat.two_pow_pos _
    rw [hsplit, Nat.mul_div_cancel _ he] at hdiv
    have hke2 : 0 < 2 ^ (k - e) := Nat.two_pow_pos _
    have : a ≤ a * 2 ^ (k - e) := Nat.le_mul_of_pos_right a hke2
    rw [pow_zero, Nat.div_one]
    omega

/-- The two products of line 33 are exact when the final product is representable. -/
theorem mulDouble_mebibytes (n : Nat) (h : IsExactDouble (n * 1048576)) :
    mulDouble (mulDouble (roundDouble n) 1024) 1024 = some (n * 1048576) := by
  have h0 : IsExactDouble n := isExactDouble_of_mul_pow n 20 (by norm_num; exact h)
  have h1 : IsExactDouble (n * 1024) :=
    isExactDouble_of_mul_pow (n * 1024) 10 (by
      have : n * 1024 * 2 ^ 10 = n * 1048576 := by ring
      rw [this]; exact h)
  have hprod : n * 1024 * 1024 = n * 1048576 := by ring
  have h2 : IsExactDouble (n * 1024 * 1024) := by
    rw [hprod]; exact h
  have e0 := roundDouble_of_exact n h0
  have e1 := roundDouble_of_exact (n * 1024) h1
  have e2 := roundDouble_of_exact (n * 1024 * 1024) h2
  unfold mulDouble
  rw [e0, Option.some_bind, e1, Option.some_bind, e2, hprod]

/-! ## Decimal numerals with leading zeros -/

theorem digitsToNat_zeros (z : Nat) (cs : List Char) :
    digitsToNat (List.replicate z '0' ++ cs) = digitsToNat cs := by
  unfold digitsToNat
  rw [List.foldl_append]
  congr 1
  induction z with
  | zero => rfl
  | succ z ih => rw [List.replicate_succ, List.foldl_cons]; exact ih

theorem zeros_repr_isDecimalDigit (z n : Nat) :
    ∀ d ∈ List.replicate z '0' ++ (Nat.repr n).toList, isDecimalDigit d = true := by
  intro d hd
  rcases List.mem_append.1 hd with hd | hd
  · rw [List.eq_of_mem_replicate hd]; decide
  · exact repr_isDecimalDigit n d hd

/-! ## Every run of digits is a numeral with leading zeros -/

theorem toDigitsCore_eq_append (n : Nat) :
    ∀ (fuel : Nat) (ds : List Char), n < fuel →
      Nat.toDigitsCore 10 fuel n ds = Nat.toDigits 10 n ++ ds := by
  induction n using Nat.strong_induction_on with
  | _ n ih =>
    intro fuel ds hfuel
    cases fuel with
    | zero => omega
    | succ fuel =>
      unfold Nat.toDigits
      simp only [Nat.toDigitsCore]
      by_cases hz : n / 10 = 0
      · simp [hz]
      · simp only [hz, if_false]
        have hlt : n / 10 < n := by omega
        rw [ih (n / 10) hlt fuel _ (by omega), ih (n / 10) hlt n _ hlt]
        simp

theorem repr_of_lt_ten (v : Nat) (hv : v < 10) : (Nat.repr v).toList = [Nat.digitChar v] := by
  show Nat.toDigitsCore 10 (v + 1) v [] = [Nat.digitChar v]
  have h1 : v / 10 = 0 := by omega
  have h2 : v % 10 = v := by omega
  simp [Nat.toDigitsCore, h1, h2]

theorem repr_snoc (m v : Nat) (hm : 0 < m) (hv : v < 10) :
    (Nat.repr (m * 10 + v)).toList = (Nat.repr m).toList ++ [Nat.digitChar v] := by
  show Nat.toDigitsCore 10 (m * 10 + v + 1) (m * 10 + v) [] = Nat.toDigits 10 m ++ _
  have h1 : (m * 10 + v) / 10 = m := by omega
  have h2 : (m * 10 + v) % 10 = v := by omega
  have h3 : m ≠ 0 := by omega
  simp only [Nat.toDigitsCore, h1, h2, h3, if_false]
  exact toDigitsCore_eq_append m _ _ (by omega)

theorem digitChar_of_isDecimalDigit (c : Char) (h : isDecimalDigit c = true) :
    c.toNat - 48 < 10 ∧ Nat.digitChar (c.toNat - 48) = c := by
  have hc : 48 ≤ c.toNat ∧ c.toNat ≤ 57 := by
    simp only [isDecimalDigit, Bool.and_eq_true, decide_eq_true_eq] at h
    exact ⟨h.1, h.2⟩
  have hof : Char.ofNat c.toNat = c := Char.ofNat_toNat c
  obtain ⟨h1, h2⟩ := hc
  generalize c.toNat = k at h1 h2 hof
  subst hof
  interval_cases k <;> exact ⟨by decide, by decide⟩

theorem digitsToNat_snoc (init : List Char) (d : Char) :
    digitsToNat (init ++ [d]) = digitsToNat init * 10 + (d.toNat - 48) := by
  simp [digitsToNat, List.foldl_append]

/-- A non-empty run of decimal digits is the decimal numeral of the number it denotes,
preceded by zeros. -/
theorem digit_run_is_numeral (ds : List Char) :
    ds ≠ [] → (∀ d ∈ ds, isDecimalDigit d = true) →
      ∃ z, ds = List.replicate z '0' ++ (Nat.repr (digitsToNat ds)).toList := by
  induction ds using List.reverseRecOn with
  | nil => intro h; exact absurd rfl h
  | append_singleton init d ih =>
    intro _ hdig
    obtain ⟨hv, hchar⟩ := digitChar_of_isDecimalDigit d (hdig d (by simp))
    rw [digitsToNat_snoc]
    by_cases hinit : init = []
    · subst hinit
      refine ⟨0, ?_⟩
      have h0 : digitsToNat [] = 0 := rfl
      rw [h0, Nat.zero_mul, Nat.zero_add, repr_of_lt_ten _ hv, hchar]
      rfl
    · obtain ⟨z, hz⟩ := ih hinit (fun c hc => hdig c (by simp [hc]))
      by_cases hm : digitsToNat init = 0
      · refine ⟨z + 1, ?_⟩
        rw [hm] at hz
        have hzero : (Nat.repr 0).toList = ['0'] := rfl
        rw [hm, Nat.zero_mul, Nat.zero_add, repr_of_lt_ten _ hv, hchar]
        conv_lhs => rw [hz, hzero]
        rw [List.replicate_succ']
      · refine ⟨z, ?_⟩
        rw [repr_snoc _ _ (Nat.pos_of_ne_zero hm) hv, hchar, ← List.append_assoc, ← hz]

/-! ## Normalisation of `maxBytes` -/

theorem normalizeMaxBytes_of_not_hasDigitM (v : JSVal) (h : hasDigitM v.toStr.toList = false) :
    normalizeMaxBytes v = v := by
  unfold normalizeMaxBytes
  rw [regexDigitsM_none _ h]
  split <;> rfl

theorem normalizeMaxBytes_of_leftmost (v : JSVal) (pre post : List Char) (z n : Nat) (c : Char)
    (htruthy : v.truthy = true)
    (hform : v.toStr.toList = pre ++ (List.replicate z '0' ++ (Nat.repr n).toList) ++ c :: post)
    (hc : isLetterM c = true)
    (hmax : ∀ p ∈ pre.getLast?, isDecimalDigit p = false)
    (hleft : hasDigitM (pre ++ (List.replicate z '0' ++ (Nat.repr n).toList)) = false)
    (hexact : IsExactDouble (1048576 * n)) :
    normalizeMaxBytes v = .num (1048576 * (n : Int)) := by
  have hne : List.replicate z '0' ++ (Nat.repr n).toList ≠ [] := by
    intro h
    exact repr_ne_nil n (List.append_eq_nil.1 h).2
  unfold normalizeMaxBytes
  rw [if_pos htruthy, hform,
    regexDigitsM_leftmost _ c post hne (zeros_repr_isDecimalDigit z n) hc pre hmax hleft]
  simp only
  rw [digitsToNat_zeros, digitsToNat_repr, mulDouble_mebibytes n (by rw [Nat.mul_comm]; exact hexact)]
  simp only [ofDouble, JSVal.num.injEq]
  push_cast
  ring

/-- The shorthand `"<N>m"` on every `N`: the captured numeral is converted to a double
and multiplied twice. -/
theorem normalizeMaxBytes_numeral (N : Nat) :
    normalizeMaxBytes (.str (Nat.repr N ++ "m"))
      = ofDouble (mulDouble (mulDouble (roundDouble N) 1024) 1024) := by
  have hno : hasDigitM ([] ++ (Nat.repr N).toList) = false := by
    apply hasDigitM_of_no_letterM
    intro c hc
    have hd := repr_isDecimalDigit N c (by simpa using hc)
    cases hm : isLetterM c with
    | false => rfl
    | true => rw [isLetterM_not_digit hm] at hd; cases hd
  have htruthy : (JSVal.str (Nat.repr N ++ "m")).truthy = true := by
    have hne : Nat.repr N ++ "m" ≠ "" := by
      intro h
      have := congrArg String.toList h
      simp [String.toList, String.data_append] at this
    simp [JSVal.truthy, hne]
  have hform : (JSVal.str (Nat.repr N ++ "m")).toStr.toList
      = [] ++ (Nat.repr N).toList ++ 'm' :: [] := by
    simp [JSVal.toStr, String.toList, String.data_append]
  unfold normalizeMaxBytes
  rw [if_pos htruthy, hform,
    regexDigitsM_leftmost _ 'm' [] (repr_ne_nil N) (repr_isDecimalDigit N) (by decide) []
      (fun p hp => by cases hp) hno]
  simp only
  rw [digitsToNat_repr]

theorem ofDouble_ne_undefined (d : Option Nat) : (ofDouble d).isUndefined = false := by
  cases d <;> rfl

theorem normalizeMaxBytes_shorthand (N : Nat) (hexact : IsExactDouble (N * 1048576)) :
    normalizeMaxBytes (.str (Nat.repr N ++ "m")) = .num ((N : Int) * 1024 * 1024) := by
  have hno : hasDigitM ([] ++ (List.replicate 0 '0' ++ (Nat.repr N).toList)) = false := by
    apply hasDigitM_of_no_letterM
    intro c hc
    have hd := repr_isDecimalDigit N c (by simpa using hc)
    cases hm : isLetterM c with
    | false => rfl
    | true => rw [isLetterM_not_digit hm] at hd; cases hd
  have htruthy : (JSVal.str (Nat.repr N ++ "m")).truthy = true := by
    have hne : Nat.repr N ++ "m" ≠ "" := by
      intro h
      have := congrArg String.toList h
      simp [String.toList, String.data_append] at this
    simp [JSVal.truthy, hne]
  have h := normalizeMaxBytes_of_leftmost (.str (Nat.repr N ++ "m")) [] [] 0 N 'm' htruthy
    (by simp [JSVal.toStr, String.toList, String.data_append]) (by decide)
    (fun p hp => by cases hp) hno (by rw [Nat.mul_comm]; exact hexact)
  rw [h]
  simp only [JSVal.num.injEq]
  ring

/-- C7: whatever the other options are, a `maxBytes` given as the decimal numeral of `N`
followed by `m`, with `N * 1048576` exactly representable as a double, becomes the
number `N * 1024 * 1024` in the options of the built receiver (for every `N` it becomes
the numeral's double multiplied by `1024` twice in double arithmetic); a `maxBytes`
given as an integer number stays that number; and an absent (`undefined`) `maxBytes`
becomes `15000000`. -/
theorem maxBytes_normalisation (o : Options) (N : Nat) (n : Int) :
    (IsExactDouble (N * 1048576) →
        (buildDiskReceiverStream
            { o with maxBytes := .str (Nat.repr N ++ "m") }).options.maxBytes
          = .num ((N : Int) * 1024 * 1024))
      ∧ (buildDiskReceiverStream { o with maxBytes := .str (Nat.repr N ++ "m") }).options.maxBytes
        = ofDouble (mulDouble (mulDouble (roundDouble N) 1024) 1024)
      ∧ (buildDiskReceiverStream { o with maxBytes := .num n }).options.maxBytes = .num n
      ∧ (buildDiskReceiverStream { o with maxBytes := .undefined }).options.maxBytes
        = .num 15000000 := by
  refine ⟨?_, ?_, ?_, ?_⟩
  · intro hexact
    simp only [buildDiskReceiverStream, resolveOptions, applyDefaults,
      normalizeMaxBytes_shorthand N hexact]
    rfl
  · simp only [buildDiskReceiverStream, resolveOptions, applyDefaults,
      normalizeMaxBytes_numeral N, defaultTo, ofDouble_ne_undefined]
    rfl
  · simp only [buildDiskReceiverStream, resolveOptions, applyDefaults,
      normalizeMaxBytes_of_not_hasDigitM (.num n) (hasDigitM_intToStr n)]
    rfl
  · rfl

/-- Instance of C7: `"15m"`, with `15 * 1048576` a multiple of `2 ^ 20` whose quotient is
`15`. -/
theorem maxBytes_normalisation_witness :
    (buildDiskReceiverStream
        { sampleReceiver.options with maxBytes := .str (Nat.repr 15 ++ "m") }).options.maxBytes
      = .num ((15 : Nat) * 1024 * 1024) :=
  (maxBytes_normalisation sampleReceiver.options 15 0).1
    ⟨by norm_num, 20, by norm_num, by norm_num⟩

set_option exponentiation.threshold 1100 in
set_option maxRecDepth 100000 in
/-- A numeral of 310 digits followed by `m` is normalised to `Infinity`. -/
theorem huge_shorthand_is_infinity :
    normalizeMaxBytes (.str (String.mk ('1' :: List.replicate 309 '0' ++ ['m']))) = .infinity := by
  decide

/-- C10, counterexample: the string form `9007199254740993m` is a run of digits followed
by `m`, and the number it denotes is `2 ^ 53 + 1`; normalisation yields
`9007199254740992 * 1048576`, not `1048576` times that number. -/
theorem large_shorthand_is_rounded :
    normalizeMaxBytes (.str "9007199254740993m") = .num 9444732965739290427392
      ∧ (9444732965739290427392 : Int) ≠ 1048576 * 9007199254740993 := by
  decide

/-- C10, amended: the shorthand match is unanchored. If the string form of a truthy
`maxBytes` is `pre ++ ds ++ c :: post`, where `ds` is a run of decimal digits that
denotes `n` (`z` zeros followed by the decimal numeral of `n`), `c` is `m` or `M`, the
run is maximal to the left (`pre` does not end in a digit), no digit is followed by `m`
or `M` earlier (within `pre ++ ds`), and `1048576 * n` is exactly representable as a
double, then normalisation yields `1048576 * n`, whatever `pre` and `post` are; so
`"15MB"` yields `15728640` and `"1.5m"` yields `5242880`. If the string form of
`maxBytes` holds no digit followed by `m` or `M`, the value is returned as supplied; so
`"1000"` and `"500k"` stay these strings. Every non-empty run of digits has the form
required of `ds` (`digit_run_is_numeral`). -/
theorem maxBytes_match_unanchored (v : JSVal) (pre post : List Char) (z n : Nat) (c : Char) :
    (v.truthy = true →
        v.toStr.toList = pre ++ (List.replicate z '0' ++ (Nat.repr n).toList) ++ c :: post →
        isLetterM c = true →
        (∀ p ∈ pre.getLast?, isDecimalDigit p = false) →
        hasDigitM (pre ++ (List.replicate z '0' ++ (Nat.repr n).toList)) = false →
        IsExactDouble (1048576 * n) →
        normalizeMaxBytes v = .num (1048576 * (n : Int)))
      ∧ normalizeMaxBytes (.str "15MB") = .num 15728640
      ∧ normalizeMaxBytes (.str "1.5m") = .num 5242880
      ∧ (hasDigitM v.toStr.toList = false → normalizeMaxBytes v = v)
      ∧ normalizeMaxBytes (.str "1000") = .str "1000"
      ∧ normalizeMaxBytes (.str "500k") = .str "500k" :=
  ⟨normalizeMaxBytes_of_leftmost v pre post z n c, by decide, by decide,
    normalizeMaxBytes_of_not_hasDigitM v, by decide, by decide⟩

/-- Instances of C10 (amended): in `"max 12 or 1.05mb3M"` the leftmost match is the run
`05` before `m`, which denotes `5`; `"[object Object]"` holds no match. -/
theorem maxBytes_match_unanchored_witness :
    normalizeMaxBytes (.str "max 12 or 1.05mb3M") = .num (1048576 * ((5 : Nat) : Int))
      ∧ normalizeMaxBytes (.obj "[object Object]") = .obj "[object Object]" :=
  ⟨(maxBytes_match_unanchored (.str "max 12 or 1.05mb3M") "max 12 or 1.".toList
      "b3M".toList 1 5 'm').1 (by decide) (by decide) (by decide) (by decide) (by decide)
      ⟨by norm_num, 20, by norm_num, by norm_num⟩,
   (maxBytes_match_unanchored (.obj "[object Object]") [] [] 0 0 'm').2.2.2.1 (by decide)⟩

/-! ## Traces: auxiliary facts -/

theorem doneCalls_append (a b : List Effect) : doneCalls (a ++ b) = doneCalls a ++ doneCalls b := by
  induction a with
  | nil => rfl
  | cons e a ih => cases e <;> simp [doneCalls, ih]

theorem runEvents_snoc (P : Platform) (evs : List PipelineEvent) (ev : PipelineEvent) :
    ∀ t : Transfer, runEvents P t (evs ++ [ev]) =
      ((runEvents P t evs).1 ++ (handleEvent P (runEvents P t evs).2 ev).1,
        (handleEvent P (runEvents P t evs).2 ev).2) := by
  induction evs with
  | nil => intro t; simp [runEvents]
  | cons e evs ih => intro t; simp [runEvents, ih]

theorem handleEvent_doneCalls (P : Platform) (t : Transfer) (ev : PipelineEvent) :
    (doneCalls (handleEvent P t ev).1).length = if ev.completes then 1 else 0 := by
  cases ev with
  | finish =>
    cases hfind : findRecord t.receiver.files t.skipperFd <;>
      simp [handleEvent, hfind, doneCalls, PipelineEvent.completes]
  | exceedsUploadLimit err => rfl
  | outsError err => rfl
  | progressError err => rfl
  | sourceError err => rfl

theorem runEvents_doneCalls (P : Platform) (evs : List PipelineEvent) :
    ∀ t : Transfer, (doneCalls (runEvents P t evs).1).length = evs.countP PipelineEvent.completes := by
  induction evs with
  | nil => intro t; rfl
  | cons ev evs ih =>
    intro t
    simp only [runEvents, doneCalls_append, List.length_append, ih, handleEvent_doneCalls,
      List.countP_cons]
    omega

theorem onFile_some (P : Platform) (r : Receiver) (f : IncomingFile) (encoding : JSVal)
    (t : Transfer) (h : (onFile P r f encoding).2 = some t) :
    onFile P r f encoding = ([.mkdirs (P.dirname t.skipperFd)], some t) := by
  unfold onFile at h ⊢
  cases hfd : determineFd f with
  | str s =>
    simp only [hfd] at h ⊢
    by_cases hslash : hasLeadingSlash s = true
    · simp only [hslash, if_true, Option.some.injEq] at h ⊢
      subst h
      rfl
    · rw [Bool.not_eq_true] at hslash
      simp only [hslash] at h ⊢
      cases hres : P.resolve P.cwd r.options.dirpath r.options.filename with
      | ok p =>
        simp only [hres, Bool.false_eq_true, if_false, Option.some.injEq] at h ⊢
        subst h
        rfl
      | error e => simp [hres] at h
  | undefined => simp [hfd] at h
  | null => simp [hfd] at h
  | bool b => simp [hfd] at h
  | num n => simp [hfd] at h
  | infinity => simp [hfd] at h
  | obj o => simp [hfd] at h
  | func o => simp [hfd] at h
  | error o => simp [hfd] at h

/-! ## The claims about `_write` -/

/-- C1, counterexample: a file without `skipperFd` whose `fd` is the empty string has
the empty string as its identifier, yet `_write` does not call `done`: it asks for the
directory `/srv/app/uploads` to be created. -/
theorem empty_identifier_not_rejected :
    determineFd fileWithEmptyFd = .str ""
      ∧ onFile posix sampleReceiver fileWithEmptyFd (.str "utf8")
        = ([.mkdirs "/srv/app/uploads"],
            some ⟨sampleReceiver,
              { fileWithEmptyFd with skipperFd := .str "/srv/app/uploads/out.bin" },
              "/srv/app/uploads/out.bin", .str "utf8"⟩) := by
  decide

/-- C1, amended: when the identifier of the file (`skipperFd` if truthy, otherwise `fd`
if it is a string, otherwise `undefined`) is not a string, the whole trace of `_write` is
one call of `done` with the invalid-`skipperFd` error, whatever the environment does
afterwards: no directory is created, no stream opened, no handler bound, no event
emitted. -/
theorem non_string_identifier_rejected (P : Platform) (r : Receiver) (f : IncomingFile)
    (encoding mkdirsErr : JSVal) (evs : List PipelineEvent)
    (h : (determineFd f).isString = false) :
    writeTrace P r f encoding mkdirsErr evs =
      [.done (.error ("In skipper-disk adapter, write() method called with a stream that has an invalid `skipperFd`: "
        ++ (determineFd f).toStr))] := by
  unfold writeTrace onFile
  cases hfd : determineFd f <;> simp_all [JSVal.isString]

/-- Instance of C1 (amended): a file whose `skipperFd` is the number `42`. -/
theorem non_string_identifier_rejected_witness :
    writeTrace posix sampleReceiver (fileWithSkipperFd (.num 42) "a.txt") (.str "utf8")
        .undefined [.finish] =
      [.done (.error ("In skipper-disk adapter, write() method called with a stream that has an invalid `skipperFd`: "
        ++ (determineFd (fileWithSkipperFd (.num 42) "a.txt")).toStr))] :=
  non_string_identifier_rejected posix sampleReceiver (fileWithSkipperFd (.num 42) "a.txt")
    (.str "utf8") .undefined [.finish] (by decide)

/-- C2, counterexample: after a successful `mkdirs`, the events `finish` and then
`E_EXCEEDS_UPLOAD_LIMIT` make the receiver call `done` twice. -/
theorem done_called_twice :
    doneCalls (writeTrace posix sampleReceiver
        (fileWithSkipperFd (.str "/srv/app/uploads/a.bin") "a.bin") (.str "utf8") .undefined
        [.finish, .exceedsUploadLimit (.error "E_EXCEEDS_UPLOAD_LIMIT")])
      = [.undefined, .error "E_EXCEEDS_UPLOAD_LIMIT"] := by
  decide

/-- C2, amended: for a file that reached `mkdirs` and whose `mkdirs` succeeded, and for
every finite sequence of pipeline events, `done` is called once for each `finish` and
each `E_EXCEEDS_UPLOAD_LIMIT` event of the sequence and never for an `error` event of
the writer, the progress stream or the source. -/
theorem done_once_per_completing_event (P : Platform) (r : Receiver) (f : IncomingFile)
    (encoding mkdirsErr : JSVal) (evs : List PipelineEvent) (t : Transfer)
    (hmkdirs : (onFile P r f encoding).2 = some t) (hok : mkdirsErr.truthy = false) :
    (doneCalls (writeTrace P r f encoding mkdirsErr evs)).length
      = evs.countP PipelineEvent.completes := by
  unfold writeTrace
  rw [onFile_some P r f encoding t hmkdirs]
  simp only [mkdirsCallback, hok]
  simp [doneCalls_append, doneCalls, runEvents_doneCalls]

/-- Instance of C2 (amended): one `finish` among three `error` events gives one call. -/
theorem done_once_per_completing_event_witness :
    (doneCalls (writeTrace posix sampleReceiver
        (fileWithSkipperFd (.str "/srv/app/uploads/a.bin") "a.bin") (.str "utf8") .undefined
        [.sourceError (.error "EIO"), .finish, .outsError (.error "EIO"),
          .progressError (.error "EIO")])).length
      = [PipelineEvent.sourceError (.error "EIO"), .finish, .outsError (.error "EIO"),
          .progressError (.error "EIO")].countP PipelineEvent.completes :=
  done_once_per_completing_event posix sampleReceiver
    (fileWithSkipperFd (.str "/srv/app/uploads/a.bin") "a.bin") (.str "utf8") .undefined _
    (sampleTransfer []) (by decide) (by decide)

/-- C3, counterexample: when the writer emits `error` for the file being written, the
receiver emits one `error` event and does not call `done`. -/
theorem writer_error_does_not_call_done :
    errorEvents (writeTrace posix sampleReceiver
        (fileWithSkipperFd (.str "/srv/app/uploads/a.bin") "a.bin") (.str "utf8") .undefined
        [.outsError (.error "ENOSPC")])
      = [.error "Error writing file `/srv/app/uploads/a.bin` to disk (for field `avatar`): Error: ENOSPC"]
      ∧ doneCalls (writeTrace posix sampleReceiver
        (fileWithSkipperFd (.str "/srv/app/uploads/a.bin") "a.bin") (.str "utf8") .undefined
        [.outsError (.error "ENOSPC")]) = [] := by
  decide

/-- C3, amended: in response to an `error` event of the writer, whatever events came
before, the receiver emits exactly one `error` event, whose message names the file and
the field, and does nothing else: it does not call `done`, and the closure of the
transfer (the file, the record store, the options) is unchanged. -/
theorem writer_error_emits_one_error (P : Platform) (t : Transfer)
    (evs : List PipelineEvent) (err : JSVal) :
    (runEvents P t (evs ++ [.outsError err])).1 =
        (runEvents P t evs).1 ++
          [.emitError (.error ("Error writing file `" ++ (runEvents P t evs).2.skipperFd ++
            "` to disk (for field `" ++ (runEvents P t evs).2.newFile.field.toStr ++ "`): " ++
            P.inspect err (some 5)))]
      ∧ (runEvents P t (evs ++ [.outsError err])).2 = (runEvents P t evs).2
      ∧ doneCalls (handleEvent P (runEvents P t evs).2 (.outsError err)).1 = []
      ∧ (errorEvents (handleEvent P (runEvents P t evs).2 (.outsError err)).1).length = 1 := by
  rw [runEvents_snoc]
  exact ⟨rfl, rfl, rfl, rfl⟩

/-- C4: on `finish`, for every record store, the receiver emits exactly one `writefile`
event, carrying the file as it is after the handler, emits no `error` event and calls
`done` once without an error; the receiver, its record store included, is unchanged; if
the first record whose `fd` is the resolved identifier is `rec`, the file is the former
file with `byteCount` set to `rec.total`; if no record has that `fd`, the file is
unchanged. -/
theorem finish_reports_file (P : Platform) (t : Transfer) :
    writefileEvents (handleEvent P t .finish).1 = [(handleEvent P t .finish).2.newFile]
      ∧ doneCalls (handleEvent P t .finish).1 = [.undefined]
      ∧ errorEvents (handleEvent P t .finish).1 = []
      ∧ (handleEvent P t .finish).2.receiver = t.receiver
      ∧ (handleEvent P t .finish).2.skipperFd = t.skipperFd
      ∧ (∀ (pre : List FileRecord) (rec : FileRecord) (post : List FileRecord),
          t.receiver.files = pre ++ rec :: post → rec.fd = .str t.skipperFd →
          (∀ x ∈ pre, x.fd ≠ .str t.skipperFd) →
          (handleEvent P t .finish).2.newFile = { t.newFile with byteCount := rec.total })
      ∧ ((∀ x ∈ t.receiver.files, x.fd ≠ .str t.skipperFd) →
          (handleEvent P t .finish).2.newFile = t.newFile) := by
  cases hfind : findRecord t.receiver.files t.skipperFd with
  | none =>
    refine ⟨?_, ?_, ?_, ?_, ?_, ?_, ?_⟩
    · simp [handleEvent, hfind, writefileEvents]
    · simp [handleEvent, hfind, doneCalls]
    · simp [handleEvent, hfind, errorEvents]
    · simp [handleEvent, hfind]
    · simp [handleEvent, hfind]
    · intro pre rec post hfiles hfd _
      exfalso
      have hnone := List.find?_eq_none.1 hfind rec (by rw [hfiles]; simp)
      simp [hfd] at hnone
    · intro _
      simp [handleEvent, hfind]
  | some file =>
    refine ⟨?_, ?_, ?_, ?_, ?_, ?_, ?_⟩
    · simp [handleEvent, hfind, writefileEvents]
    · simp [handleEvent, hfind, doneCalls]
    · simp [handleEvent, hfind, errorEvents]
    · simp [handleEvent, hfind]
    · simp [handleEvent, hfind]
    · intro pre rec post hfiles hfd hpre
      have hpre2 : List.find? (fun file => file.fd == JSVal.str t.skipperFd) pre = none :=
        List.find?_eq_none.2 (fun x hx => by simpa using hpre x hx)
      have hrec : file = rec := by
        have h := hfind
        unfold findRecord at h
        rw [hfiles, List.find?_append, hpre2] at h
        simpa [List.find?_cons, hfd] using h.symm
      simp [handleEvent, hfind, hrec]
    · intro hall
      exfalso
      have hmem := List.mem_of_find?_eq_some hfind
      have hp := List.find?_some hfind
      exact hall file hmem (by simpa using hp)

/-- Instance of C4: the store holds a foreign record, then two records of the file; the
first of the two gives `byteCount`. A store without a record of the file leaves the
file as it was. -/
theorem finish_reports_file_witness :
    (handleEvent posix (sampleTransfer [⟨.str "/srv/app/uploads/b.bin", .num 9⟩,
        ⟨.str "/srv/app/uploads/a.bin", .num 500⟩,
        ⟨.str "/srv/app/uploads/a.bin", .num 7⟩]) .finish).2.newFile
        = { (sampleTransfer []).newFile with byteCount := .num 500 }
      ∧ (handleEvent posix (sampleTransfer [⟨.str "/srv/app/uploads/b.bin", .num 9⟩])
        .finish).2.newFile = (sampleTransfer []).newFile :=
  ⟨(finish_reports_file posix (sampleTransfer [⟨.str "/srv/app/uploads/b.bin", .num 9⟩,
        ⟨.str "/srv/app/uploads/a.bin", .num 500⟩,
        ⟨.str "/srv/app/uploads/a.bin", .num 7⟩])).2.2.2.2.2.1
      [⟨.str "/srv/app/uploads/b.bin", .num 9⟩] ⟨.str "/srv/app/uploads/a.bin", .num 500⟩
      [⟨.str "/srv/app/uploads/a.bin", .num 7⟩] rfl rfl (by decide),
   (finish_reports_file posix
      (sampleTransfer [⟨.str "/srv/app/uploads/b.bin", .num 9⟩])).2.2.2.2.2.2 (by decide)⟩

/-- C5: if `_write` reached `mkdirs` (the identifier is a string and, when it is not
absolute, `path.resolve` returned) and `mkdirs` fails with a truthy error `e`, then the
whole trace of the call is the `mkdirs` request followed by one call `done(e)`,
whatever events the environment raises afterwards: no write stream is opened, no
handler bound, no progress stream built and no event emitted. -/
theorem mkdirs_failure_fails_write (P : Platform) (r : Receiver) (f : IncomingFile)
    (encoding e : JSVal) (evs : List PipelineEvent) (t : Transfer)
    (hmkdirs : (onFile P r f encoding).2 = some t) (he : e.truthy = true) :
    writeTrace P r f encoding e evs = [.mkdirs (P.dirname t.skipperFd), .done e] := by
  unfold writeTrace
  rw [onFile_some P r f encoding t hmkdirs]
  simp [mkdirsCallback, he]

/-- Instance of C5: `mkdirs` fails with `EACCES` for `/srv/app/uploads/a.bin`. -/
theorem mkdirs_failure_fails_write_witness :
    writeTrace posix sampleReceiver (fileWithSkipperFd (.str "/srv/app/uploads/a.bin") "a.bin")
        (.str "utf8") (.error "EACCES") [.finish]
      = [.mkdirs (posix.dirname (sampleTransfer []).skipperFd), .done (.error "EACCES")] :=
  mkdirs_failure_fails_write posix sampleReceiver
    (fileWithSkipperFd (.str "/srv/app/uploads/a.bin") "a.bin") (.str "utf8") (.error "EACCES")
    [.finish] (sampleTransfer []) (by decide) (by decide)

/-- C6: in response to `E_EXCEEDS_UPLOAD_LIMIT`, whatever events came before, the
receiver calls `done` with exactly the value the event carries and does nothing else:
no `writefile` and no `error` event is emitted, and the closure of the transfer (the
file, the record store, the options) is unchanged. -/
theorem limit_exceeded_fails_write (P : Platform) (t : Transfer) (evs : List PipelineEvent)
    (err : JSVal) :
    (runEvents P t (evs ++ [.exceedsUploadLimit err])).1 = (runEvents P t evs).1 ++ [.done err]
      ∧ (runEvents P t (evs ++ [.exceedsUploadLimit err])).2 = (runEvents P t evs).2
      ∧ writefileEvents (handleEvent P (runEvents P t evs).2 (.exceedsUploadLimit err)).1 = []
      ∧ errorEvents (handleEvent P (runEvents P t evs).2 (.exceedsUploadLimit err)).1 = []
      ∧ (runEvents P t (evs ++ [.exceedsUploadLimit err])).2.receiver = t.receiver := by
  have hrcv : ∀ (evs : List PipelineEvent) (t : Transfer),
      (runEvents P t evs).2.receiver = t.receiver := by
    intro evs
    induction evs with
    | nil => intro t; rfl
    | cons ev evs ih =>
      intro t
      simp only [runEvents, ih]
      cases ev with
      | finish =>
        cases hfind : findRecord t.receiver.files t.skipperFd <;> simp [handleEvent, hfind]
      | exceedsUploadLimit e => rfl
      | outsError e => rfl
      | progressError e => rfl
      | sourceError e => rfl
  rw [runEvents_snoc]
  exact ⟨rfl, rfl, rfl, rfl, hrcv evs t⟩

/-- C8, the code at the failing input: two files of one receiver whose identifiers are
the different strings `a.txt` and `b.txt` are both written to
`/srv/app/uploads/out.bin`. -/
theorem relative_identifiers_collide :
    determineFd (fileWithSkipperFd (.str "a.txt") "a.txt")
        ≠ determineFd (fileWithSkipperFd (.str "b.txt") "b.txt")
      ∧ Effect.createWriteStream "/srv/app/uploads/out.bin" (.str "utf8")
        ∈ writeTrace posix sampleReceiver (fileWithSkipperFd (.str "a.txt") "a.txt")
            (.str "utf8") .undefined []
      ∧ Effect.createWriteStream "/srv/app/uploads/out.bin" (.str "utf8")
        ∈ writeTrace posix sampleReceiver (fileWithSkipperFd (.str "b.txt") "b.txt")
            (.str "utf8") .undefined [] := by
  decide

/-- On every platform, two files whose identifiers are strings without a leading slash
are given the same resolved identifier, or `path.resolve` throws for both. -/
theorem relative_identifiers_resolve_alike (P : Platform) (r : Receiver) (f g : IncomingFile)
    (encoding : JSVal) (a b : String) (hf : determineFd f = .str a) (hg : determineFd g = .str b)
    (ha : hasLeadingSlash a = false) (hb : hasLeadingSlash b = false) :
    (onFile P r f encoding).2.map Transfer.skipperFd
      = (onFile P r g encoding).2.map Transfer.skipperFd := by
  unfold onFile
  simp only [hf, hg, ha, hb]
  cases P.resolve P.cwd r.options.dirpath r.options.filename <;> rfl

/-- An identifier with a leading slash is used as given. -/
theorem absolute_identifier_kept (P : Platform) (r : Receiver) (f : IncomingFile)
    (encoding : JSVal) (a : String) (hf : determineFd f = .str a)
    (ha : hasLeadingSlash a = true) :
    (onFile P r f encoding).2 = some ⟨r, f, a, encoding⟩ := by
  unfold onFile
  simp [hf, ha]

/-- C9, counterexample: a source `error` after the pipeline is wired makes the receiver
emit no `error` event. -/
theorem source_error_not_forwarded :
    errorEvents (writeTrace posix sampleReceiver
        (fileWithSkipperFd (.str "/srv/app/uploads/a.bin") "a.bin") (.str "utf8") .undefined
        [.sourceError (.error "ECONNRESET")]) = [] := by
  decide

/-- C9, amended: in response to a source `error`, whatever events came before, the
receiver writes one `debug` line and calls `log` once with the file name and the error,
and does nothing else: it emits no event, does not call `done`, and the closure of the
transfer is unchanged. -/
theorem source_error_logged_only (P : Platform) (t : Transfer) (evs : List PipelineEvent)
    (err : JSVal) :
    (runEvents P t (evs ++ [.sourceError err])).1 =
        (runEvents P t evs).1 ++
          [ .debug ("Read error on file " ++ (runEvents P t evs).2.newFile.filename.toStr ++ "::"
              ++ P.inspect (if err.truthy then P.stack err else err) none),
            .log [.str ("***** READ error on file " ++
              (runEvents P t evs).2.newFile.filename.toStr), .str "::", err] ]
      ∧ (runEvents P t (evs ++ [.sourceError err])).2 = (runEvents P t evs).2
      ∧ errorEvents (handleEvent P (runEvents P t evs).2 (.sourceError err)).1 = []
      ∧ writefileEvents (handleEvent P (runEvents P t evs).2 (.sourceError err)).1 = []
      ∧ doneCalls (handleEvent P (runEvents P t evs).2 (.sourceError err)).1 = [] := by
  rw [runEvents_snoc]
  exact ⟨rfl, rfl, rfl, rfl, rfl⟩

end SkipperDisk
